import Mathlib

-- Verification of the geneRelate statistical enrichment engine against its
-- specification.  The enrichment core (hypergeometric test, Benjamini-Hochberg
-- FDR correction, orchestrator, UPGMA clusterer) is loaded by the application
-- as `window.Enrichment` and `window.Plots`; those files are not part of the
-- checked-in sources here, so their behaviour is modelled from the spec, as
-- marked on each definition.  The CSV exporter (`downloadCSV` in export.js)
-- is present in the sources and is embedded directly from the code.

namespace GeneRelate

-- ===== Definitions =====

-- ===== Hypergeometric Test Engine (spec section 4.1) =====

/-- Error taxonomy of the Test Engine (spec section 7). -/
inductive TestError where
  | invalidParameters
deriving DecidableEq

/-- Hypergeometric probability mass function, in exact rationals:
`P(X = k)` when drawing `n` items without replacement from a population of
`N` items of which `K` are marked.  Outside the support one of the binomial
coefficients is `0`, so the value is `0`. -/
def hypergeomPMF (N K n k : ℕ) : ℚ :=
  ((K.choose k * (N - K).choose (n - k) : ℕ) : ℚ) / ((N.choose n : ℕ) : ℚ)

/-- Reference upper-tail probability `P(X ≥ h)` of the hypergeometric
distribution with parameters `(N, K, n)`: the exact combinatorial sum of the
mass function over all `k` from `h` to the sample size `n`. -/
def hypergeomTail (N K n h : ℕ) : ℚ :=
  (Finset.Icc h n).sum (fun k => hypergeomPMF N K n k)

/-- Modelled from the spec: the Test Engine contract
`test(queryHits, queryTotal, termBackground, populationTotal) -> pValue`
(spec section 4.1); the engine itself ships outside the checked-in sources.
Inputs are integers so that the negative-count error cases are expressible.
Per the spec's edge cases, negative counts, counts exceeding the population,
`termBackground = 0` and `populationTotal < queryTotal` fail with
`InvalidParameters`.  Otherwise the one-sided over-representation tail
`P(X ≥ queryHits)` is returned, summed term by term over the support of the
tail (the loop stops at `min queryTotal termBackground`, past which every
term is zero).  The model computes in exact rationals; the implementation's
log-space evaluation is its floating-point realization of this value. -/
def test (queryHits queryTotal termBackground populationTotal : ℤ) :
    Except TestError ℚ :=
  if queryHits < 0 ∨ queryTotal < 0 ∨ termBackground < 0 ∨ populationTotal < 0 then
    .error .invalidParameters
  else if termBackground = 0 then .error .invalidParameters
  else if populationTotal < queryTotal then .error .invalidParameters
  else if populationTotal < termBackground then .error .invalidParameters
  else if queryTotal < queryHits then .error .invalidParameters
  else
    .ok ((Finset.Icc queryHits.toNat (min queryTotal.toNat termBackground.toNat)).sum
      (fun k => hypergeomPMF populationTotal.toNat termBackground.toNat queryTotal.toNat k))

-- ===== FDR Corrector (spec section 4.3) =====

/-- Clipping of a q-value to the unit interval (spec step 4). -/
def clip01 (q : ℚ) : ℚ := max 0 (min 1 q)

/-- The Benjamini-Hochberg min-cascade (spec step 3): from the largest rank
down, each q-value is replaced by the minimum of itself and its successor. -/
def minCascade : List ℚ → List ℚ
  | [] => []
  | a :: rest =>
    match minCascade rest with
    | [] => [a]
    | b :: t => min a b :: b :: t

/-- Order in which p-values are sorted for ranking: ascending p-value, ties
broken deterministically by the original position. -/
def bhRel : (ℕ × ℚ) → (ℕ × ℚ) → Prop := fun a b =>
  a.2 < b.2 ∨ (a.2 = b.2 ∧ a.1 ≤ b.1)

instance : DecidableRel bhRel := fun a b => by
  unfold bhRel
  infer_instance

/-- Spec step 1: sort the p-values ascending, retaining the original index. -/
def bhSorted (ps : List ℚ) : List (ℕ × ℚ) := List.insertionSort bhRel ps.enum

/-- Spec step 2: raw q-value `p * m / rank` for the 1-based rank in the
sorted order, still carrying the original index. -/
def bhRaw (ps : List ℚ) : List (ℕ × ℚ) :=
  (bhSorted ps).enum.map (fun e => (e.2.1, e.2.2 * (ps.length : ℚ) / ((e.1 : ℚ) + 1)))

/-- The q-values in p-value-sorted order, after the min-cascade (step 3) and
clipping (step 4). -/
def sortedQs (ps : List ℚ) : List ℚ :=
  (minCascade ((bhRaw ps).map Prod.snd)).map clip01

/-- Modelled from the spec: the FDR Corrector contract
`correct(pValues) -> qValues` (spec section 4.3); the corrector ships outside
the checked-in sources as part of `window.Enrichment`.  Steps: sort ascending
retaining the original index, rank-scale, min-cascade, clip to `[0, 1]`, and
scatter back to the original order (step 5). -/
def correct (ps : List ℚ) : List ℚ :=
  let pairs := ((bhRaw ps).map Prod.fst).zip (sortedQs ps)
  (List.range ps.length).map (fun k =>
    ((pairs.find? (fun e => e.1 == k)).map Prod.snd).getD 0)

-- ===== Enrichment Orchestrator (spec sections 3, 4.2) =====

/-- One entry of the backward view of the Annotation Index (spec section 3):
a term with its description, category label and full background gene set. -/
structure TermEntry where
  term : String
  description : String
  category : String
  bg : List String
deriving DecidableEq

/-- One row per tested term (spec section 3, EnrichmentRecord). -/
structure EnrichmentRecord where
  term : String
  description : String
  category : String
  pValue : ℚ
  fdr : ℚ
  fold : ℚ
  geneCount : ℕ
  bgCount : ℕ
  genes : List String
deriving DecidableEq

/-- Per-run summary statistics (spec section 3, EnrichmentSummary). -/
structure EnrichmentSummary where
  total : ℕ
  mapped : ℕ
  termsConsidered : ℕ
  termsTested : ℕ
deriving DecidableEq

/-- The ordered list of query genes matched by a term's background set. -/
def matchedGenes (q : List String) (e : TermEntry) : List String :=
  q.filter (fun g => g ∈ e.bg)

/-- Assembly of one per-term record (spec section 4.2 step 3): query hit
count, background count, matched gene list, and
`fold = (queryHits / queryTotal) / (termBackground / populationTotal)`.
The FDR field is filled in later by the corrector. -/
def mkRecord (n N : ℕ) (e : TermEntry) (genes : List String) (p : ℚ) :
    EnrichmentRecord :=
  { term := e.term, description := e.description, category := e.category,
    pValue := p, fdr := 0,
    fold := ((genes.length : ℚ) / (n : ℚ)) / ((e.bg.length : ℚ) / (N : ℚ)),
    geneCount := genes.length, bgCount := e.bg.length, genes := genes }

/-- Modelled from the spec: spec section 4.2 steps 1-4 of the Orchestrator
(which ships outside the checked-in sources as `window.Enrichment`): the
query is defensively deduplicated, a term with zero query hits is never
instantiated as a record, and for each candidate term the Test Engine is
invoked; per the recommended policy of spec section 7, a term whose
statistical inputs are invalid is skipped rather than aborting the run. -/
def rawRecords (query : List String) (index : List TermEntry) (N : ℕ) :
    List EnrichmentRecord :=
  let q := query.dedup
  index.filterMap (fun e =>
    let genes := matchedGenes q e
    if genes.length = 0 then none
    else ((test (genes.length : ℤ) (q.length : ℤ) (e.bg.length : ℤ) (N : ℤ)).toOption).map
      (mkRecord q.length N e genes))

/-- Spec section 4.2 step 5 (first half): each record receives the q-value
computed by the FDR Corrector for its p-value, in input order. -/
def assignFdr (rs : List EnrichmentRecord) : List EnrichmentRecord :=
  (rs.zip (correct (rs.map (fun r => r.pValue)))).map
    (fun rq => { rq.1 with fdr := rq.2 })

/-- Final rank order (spec section 2, component 4): p-value ascending, ties
broken deterministically by term identifier. -/
def recordRel : EnrichmentRecord → EnrichmentRecord → Prop := fun r s =>
  r.pValue < s.pValue ∨ (r.pValue = s.pValue ∧ ¬ s.term < r.term)

instance : DecidableRel recordRel := fun r s => by
  unfold recordRel
  infer_instance

/-- Modelled from the spec: the EnrichmentSummary of a run (spec section 3):
unique query genes, mapped query genes (those occurring in some background
set), terms considered, and terms tested (those with at least one hit). -/
def summaryOf (query : List String) (index : List TermEntry) :
    EnrichmentSummary :=
  let q := query.dedup
  { total := q.length,
    mapped := (q.filter (fun g => index.any (fun e => g ∈ e.bg))).length,
    termsConsidered := index.length,
    termsTested := (index.filter (fun e => (matchedGenes q e).length ≠ 0)).length }

/-- Modelled from the spec: the Orchestrator contract
`run(querySet, annotationIndex) -> (records, summary)` (spec section 4.2;
the Orchestrator ships outside the checked-in sources as
`window.Enrichment`).  `populationTotal` is supplied by the caller. -/
def run (query : List String) (index : List TermEntry) (N : ℕ) :
    List EnrichmentRecord × EnrichmentSummary :=
  (List.insertionSort recordRel (assignFdr (rawRecords query index N)),
   summaryOf query index)

/-- The full pipeline with an explicit external environment (wall clock,
RNG seed, run counter).  The spec's computation model (section 5) gives no
pipeline stage access to any of these, so the environment is threaded but
never read. -/
def runWithEnv (_clock _rngSeed _runCount : ℕ) (query : List String)
    (index : List TermEntry) (N : ℕ) :
    List EnrichmentRecord × EnrichmentSummary :=
  run query index N

/-- Concrete query and annotation index of spec section 8's end-to-end
scenario: term T1 overlaps the query in two genes, term T2 not at all. -/
def exampleIndex : List TermEntry :=
  [{ term := "T1", description := "term one", category := "BP",
     bg := ["G1", "G2", "G4", "G5", "G6"] },
   { term := "T2", description := "term two", category := "BP",
     bg := ["G7", "G8"] }]

/-- A one-gene, one-term scenario whose record has local proportion equal to
the global proportion. -/
def exEntry : TermEntry :=
  { term := "T1", description := "d", category := "c", bg := ["G1"] }

/-- The single output record of the `exEntry` scenario. -/
def exRecord : EnrichmentRecord :=
  { term := "T1", description := "d", category := "c", pValue := 1, fdr := 1,
    fold := 1, geneCount := 1, bgCount := 1, genes := ["G1"] }

-- ===== Jaccard Distance + UPGMA Clusterer (spec section 4.4) =====

/-- A cluster tree (spec section 3, ClusterNode): a leaf wraps one record;
an internal node owns its two children and the merge height. -/
inductive ClusterTree where
  | leaf (r : EnrichmentRecord)
  | node (left right : ClusterTree) (height : ℚ)
deriving DecidableEq

/-- Number of leaves of a cluster tree. -/
def leafCount : ClusterTree → ℕ
  | .leaf _ => 1
  | .node l r _ => leafCount l + leafCount r

/-- Number of internal merge nodes of a cluster tree. -/
def internalCount : ClusterTree → ℕ
  | .leaf _ => 0
  | .node l r _ => internalCount l + internalCount r + 1

/-- Total number of nodes of a cluster tree. -/
def totalCount : ClusterTree → ℕ
  | .leaf _ => 1
  | .node l r _ => totalCount l + totalCount r + 1

/-- A live cluster during agglomeration: its tree so far and the gene sets
of its member leaves (kept for distance computation). -/
structure Cluster where
  tree : ClusterTree
  members : List (List String)

/-- Placeholder record used only inside `emptyCluster`. -/
def emptyRecord : EnrichmentRecord :=
  { term := "", description := "", category := "", pValue := 0, fdr := 0,
    fold := 0, geneCount := 0, bgCount := 0, genes := [] }

/-- Placeholder cluster used only as the default of index lookups. -/
def emptyCluster : Cluster :=
  { tree := .leaf emptyRecord, members := [] }

/-- Jaccard distance between two gene sets (spec section 4.4):
`1 - |A ∩ B| / |A ∪ B|`, with the identical-empty convention `d = 0` when
both sets are empty. -/
def jaccard (a b : List String) : ℚ :=
  let interLen := (a.filter (fun g => g ∈ b)).length
  let unionLen := (a ++ b.filter (fun g => g ∉ a)).length
  if unionLen = 0 then 0 else 1 - (interLen : ℚ) / (unionLen : ℚ)

/-- Mean pairwise-leaf Jaccard distance between two clusters.  This is the
closed form of UPGMA's size-weighted running update
`(|A|*d(A,C) + |B|*d(B,C)) / (|A|+|B|)` (spec section 4.4 step 3). -/
def clusterDist (c d : Cluster) : ℚ :=
  ((c.members.map (fun ga => (d.members.map (fun gb => jaccard ga gb)).sum)).sum) /
    ((c.members.length : ℚ) * (d.members.length : ℚ))

/-- All index pairs `(i, j)` with `i < j < len`, in a fixed deterministic
order. -/
def allPairs (len : ℕ) : List (ℕ × ℕ) :=
  (List.range len).flatMap (fun j => (List.range j).map (fun i => (i, j)))

/-- Distance of the index pair `p` in the live cluster list. -/
def pairDist (l : List Cluster) (p : ℕ × ℕ) : ℚ :=
  clusterDist (l.getD p.1 emptyCluster) (l.getD p.2 emptyCluster)

/-- The globally minimum-distance pair of live clusters (spec section 4.4
step 3), chosen deterministically: the scan keeps the earliest pair unless a
strictly smaller distance appears. -/
def bestPair (l : List Cluster) : ℕ × ℕ :=
  match allPairs l.length with
  | [] => (0, 1)
  | p :: ps =>
    ps.foldl (fun best q => if pairDist l q < pairDist l best then q else best) p

/-- One merge of the agglomeration (spec section 4.4 step 3): the minimum
pair is removed and replaced by an internal node at height equal to their
distance, whose member list is the union of the two member lists. -/
def mergeStep (l : List Cluster) : List Cluster :=
  let ij := bestPair l
  let ci := l.getD ij.1 emptyCluster
  let cj := l.getD ij.2 emptyCluster
  { tree := .node ci.tree cj.tree (clusterDist ci cj),
    members := ci.members ++ cj.members } ::
    (l.eraseIdx ij.2).eraseIdx ij.1

/-- Total leaf count of the live clusters. -/
def sumLeaves (l : List Cluster) : ℕ := (l.map (fun c => leafCount c.tree)).sum

/-- Total internal-node count of the live clusters. -/
def sumInternal (l : List Cluster) : ℕ :=
  (l.map (fun c => internalCount c.tree)).sum

/-- Membership in `allPairs len` is exactly `i < j < len`. -/
theorem mem_allPairs {len : ℕ} {p : ℕ × ℕ} :
    p ∈ allPairs len ↔ p.1 < p.2 ∧ p.2 < len := by
  obtain ⟨i, j⟩ := p
  simp only [allPairs, List.mem_flatMap, List.mem_map, List.mem_range,
    Prod.mk.injEq]
  constructor
  · rintro ⟨j', hj', i', hi', rfl, rfl⟩
    exact ⟨hi', hj'⟩
  · rintro ⟨hij, hj⟩
    exact ⟨j, hj, i, hij, rfl, rfl⟩

/-- A fold that at each step keeps either the accumulator or the current
element ends on the accumulator or on a list element. -/
theorem foldl_min_choice_mem (g : ℕ × ℕ → ℚ) :
    ∀ (ps : List (ℕ × ℕ)) (p : ℕ × ℕ),
      ps.foldl (fun best q => if g q < g best then q else best) p ∈ p :: ps := by
  intro ps
  induction ps with
  | nil => intro p; exact List.mem_singleton_self p
  | cons q t ih =>
    intro p
    have step : (q :: t).foldl (fun best q => if g q < g best then q else best) p =
        t.foldl (fun best q => if g q < g best then q else best)
          (if g q < g p then q else p) := rfl
    rw [step]
    have h := ih (if g q < g p then q else p)
    rcases List.mem_cons.mp h with heq | ht
    · rw [heq]
      by_cases hc : g q < g p
      · rw [if_pos hc]
        exact List.mem_cons_of_mem p (List.mem_cons_self q t)
      · rw [if_neg hc]
        exact List.mem_cons_self p (q :: t)
    · exact List.mem_cons_of_mem p (List.mem_cons_of_mem q ht)

/-- For at least two live clusters, the chosen pair is a valid index pair. -/
theorem bestPair_valid (l : List Cluster) (hl : 2 ≤ l.length) :
    (bestPair l).1 < (bestPair l).2 ∧ (bestPair l).2 < l.length := by
  have h01 : ((0, 1) : ℕ × ℕ) ∈ allPairs l.length := by
    rw [mem_allPairs]
    omega
  rw [← mem_allPairs]
  unfold bestPair
  cases hAP : allPairs l.length with
  | nil =>
    rw [hAP] at h01
    exact absurd h01 (List.not_mem_nil _)
  | cons p ps =>
    have := foldl_min_choice_mem (pairDist l) ps p
    rw [← hAP] at this ⊢
    rw [hAP]
    rw [hAP] at this
    exact this

/-- One merge reduces the number of live clusters by exactly one. -/
theorem mergeStep_length (l : List Cluster) (hl : 2 ≤ l.length) :
    (mergeStep l).length = l.length - 1 := by
  obtain ⟨hij, hjl⟩ := bestPair_valid l hl
  unfold mergeStep
  simp only [List.length_cons]
  rw [List.length_eraseIdx, List.length_eraseIdx]
  simp only [if_pos hjl]
  have hi : (bestPair l).1 < l.length - 1 := by omega
  rw [if_pos hi]
  omega

/-- Modelled from the spec: the agglomeration loop of spec section 4.4
step 4 (the Clusterer ships outside the checked-in sources as
`window.Plots.createClusterTree`): merge the globally closest pair until one
cluster remains, whose tree is the result. -/
def agglomerate (l : List Cluster) : Option ClusterTree :=
  match l with
  | [] => none
  | [c] => some c.tree
  | a :: b :: rest =>
    agglomerate (mergeStep (a :: b :: rest))
termination_by l.length
decreasing_by
  rw [mergeStep_length (a :: b :: rest) (by simp)]
  simp

/-- The initial cluster of one record (spec section 4.4 step 1): a leaf
carrying the record's matched gene set. -/
def toCluster (r : EnrichmentRecord) : Cluster :=
  { tree := .leaf r, members := [r.genes] }

/-- Modelled from the spec: the Clusterer contract
`cluster(records, topN) -> ClusterTree | null` (spec section 4.4; it ships
outside the checked-in sources as `window.Plots.createClusterTree`).  The
input is restricted to the first `topN` records by rank; with fewer than two
leaves available no tree exists and the result is `null`
(`InsufficientDataForClustering`, spec section 7). -/
def cluster (records : List EnrichmentRecord) (topN : ℕ) : Option ClusterTree :=
  let items := records.take topN
  if items.length < 2 then none
  else agglomerate (items.map toCluster)

-- ===== CSV Export (src/export.js, downloadCSV) =====

/-- One result object as consumed by `downloadCSV` (src/export.js line 14):
`description` and `category` may be absent (the code guards them with
`|| ''`).  The numeric fields are exact here; their JS string rendering
(`toExponential(4)` for p-value and FDR, default number rendering for the
rest) is abstracted by formatter parameters below. -/
structure CSVRecord where
  term : String
  description : Option String
  category : Option String
  pValue : ℚ
  fdr : ℚ
  fold : ℚ
  geneCount : ℕ
  bgCount : ℕ
  genes : List String

/-- The JS global replace `.replace(/"/g, '""')`: every double-quote
character is doubled, all other characters are kept. -/
def escDouble (s : String) : String :=
  String.mk (s.data.flatMap (fun c => if c = '"' then ['"', '"'] else [c]))

/-- Wrapping of a field in double quotes, as in the template literal
`"..."` of src/export.js lines 16-17 and 23. -/
def quoted (s : String) : String := "\"" ++ s ++ "\""

/-- The header row of src/export.js line 15. -/
def csvHeaders : List String :=
  ["Term", "Description", "Category", "P-Value", "FDR", "Fold Enrichment",
   "Gene Count", "Background Count", "Genes"]

/-- The per-record row of src/export.js lines 16-25: term verbatim; quoted
and quote-doubled description and category; p-value and FDR through
`toExponential(4)` (`pExp`); fold, gene count and background count through
default number rendering (`numStr`, `natStr`); the gene list mapped through
`getNameFn`, joined with a comma and space, and wrapped in quotes without
any doubling. -/
def csvRow (pExp numStr : ℚ → String) (natStr : ℕ → String)
    (getName : String → String) (r : CSVRecord) : List String :=
  [r.term,
   quoted (escDouble (r.description.getD "")),
   quoted (escDouble (r.category.getD "")),
   pExp r.pValue,
   pExp r.fdr,
   numStr r.fold,
   natStr r.geneCount,
   natStr r.bgCount,
   quoted (String.intercalate ", " (r.genes.map getName))]

/-- `rows.map(r => r.join(','))` of src/export.js line 28. -/
def csvLine (row : List String) : String := String.intercalate "," row

/-- The full CSV text of src/export.js line 28: the header line followed by
one line per record, joined with newlines. -/
def downloadCSVText (pExp numStr : ℚ → String) (natStr : ℕ → String)
    (getName : String → String) (results : List CSVRecord) : String :=
  String.intercalate "\n"
    (csvLine csvHeaders ::
      results.map (fun r => csvLine (csvRow pExp numStr natStr getName r)))

/-- A record whose term identifier contains a comma. -/
def commaRecord : CSVRecord :=
  { term := "T,1", description := some "d", category := some "c", pValue := 0,
    fdr := 0, fold := 0, geneCount := 1, bgCount := 1, genes := ["g1"] }

-- ===== Theorems =====

/-- Terms of the tail past `termBackground` vanish, so stopping the summation
at `min n K` yields the full reference tail `P(X ≥ h)`. -/
theorem sum_min_eq_hypergeomTail (N K n h : ℕ) :
    (Finset.Icc h (min n K)).sum (fun k => hypergeomPMF N K n k) =
      hypergeomTail N K n h := by
  unfold hypergeomTail
  refine Finset.sum_subset ?_ ?_
  · intro k hk
    simp only [Finset.mem_Icc] at hk ⊢
    omega
  · intro k hk hk2
    simp only [Finset.mem_Icc] at hk hk2
    have hKk : K < k := by omega
    unfold hypergeomPMF
    rw [Nat.choose_eq_zero_of_lt hKk]
    simp

/-- C1 (amended): on every valid input with `1 ≤ termBackground ≤ populationTotal`
and `0 ≤ queryHits ≤ queryTotal ≤ populationTotal`, the Test Engine returns the
one-sided upper-tail hypergeometric probability `P(X ≥ queryHits)` with
parameters `(populationTotal, termBackground, queryTotal)`; and on the small
case population=20, background=5, query=4, hits=3 it returns exactly `31/969`,
the exact combinatorial reference value (so the relative error against the
reference is `0 ≤ 1e-9`).  The original claim also treats
`termBackground = 0` as valid, which the engine rejects (see the counterexample). -/
theorem test_returns_hypergeom_tail :
    (∀ h n K N : ℕ, h ≤ n → n ≤ N → 1 ≤ K → K ≤ N →
      test (h : ℤ) (n : ℤ) (K : ℤ) (N : ℤ) = .ok (hypergeomTail N K n h)) ∧
    test 3 4 5 20 = .ok ((31 : ℚ)/969) := by
  constructor
  · intro h n K N hn hN hK hKN
    unfold test
    split_ifs with c1 c2 c3 c4 c5
    · rcases c1 with c | c | c | c <;> omega
    · omega
    · omega
    · omega
    · omega
    · rw [Int.toNat_natCast, Int.toNat_natCast, Int.toNat_natCast, Int.toNat_natCast]
      exact congrArg Except.ok (sum_min_eq_hypergeomTail N K n h)
  · unfold test
    norm_num
    show (Finset.Icc 3 (3 + 1)).sum (fun x => hypergeomPMF 20 5 4 x) = 31/969
    rw [Finset.sum_Icc_succ_top (by omega), Finset.Icc_self, Finset.sum_singleton]
    unfold hypergeomPMF
    norm_num [Nat.choose]

/-- Witness for the first conjunct of C1's theorem: the small hand-computable
case lies in the amended valid range and yields the reference value. -/
theorem test_returns_hypergeom_tail_witness :
    test 3 4 5 20 = .ok (hypergeomTail 20 5 4 3) :=
  test_returns_hypergeom_tail.1 3 4 5 20 (by decide) (by decide) (by decide) (by decide)

/-- C1 counterexample: the claim as stated calls `termBackground = 0` a valid
input, but the Test Engine (spec section 4.1 edge cases) rejects it with
`InvalidParameters` instead of returning `P(X ≥ 0) = 1`. -/
theorem test_zero_background_counterexample :
    test 0 1 0 10 = .error .invalidParameters ∧ hypergeomTail 10 0 1 0 = 1 := by
  refine ⟨rfl, ?_⟩
  unfold hypergeomTail
  show (Finset.Icc 0 (0 + 1)).sum (fun x => hypergeomPMF 10 0 1 x) = 1
  rw [Finset.sum_Icc_succ_top (by omega), Finset.Icc_self, Finset.sum_singleton]
  unfold hypergeomPMF
  norm_num [Nat.choose]

/-- C9: a call of the Test Engine with `termBackground = 0`, or with
`populationTotal < queryTotal`, or with any negative count, does not return a
p-value: it fails with the `InvalidParameters` error. -/
theorem test_invalid_parameters (h n K N : ℤ)
    (hbad : K = 0 ∨ N < n ∨ h < 0 ∨ n < 0 ∨ K < 0 ∨ N < 0) :
    test h n K N = .error .invalidParameters := by
  unfold test
  split_ifs with c1 c2 c3 c4 c5
  · rfl
  · rfl
  · rfl
  · rfl
  · rfl
  · exfalso
    simp only [not_or, not_lt] at c1
    rcases hbad with c | c | c | c | c | c <;> omega

/-- Witness for C9 at a concrete invalid input (`termBackground = 0`). -/
theorem test_invalid_parameters_witness :
    test 1 2 0 10 = .error .invalidParameters :=
  test_invalid_parameters 1 2 0 10 (Or.inl rfl)

/-- The min-cascade preserves the list length. -/
theorem minCascade_length (l : List ℚ) : (minCascade l).length = l.length := by
  induction l with
  | nil => rfl
  | cons a rest ih =>
    show (match minCascade rest with
      | [] => [a]
      | b :: t => min a b :: b :: t).length = rest.length + 1
    cases h : minCascade rest with
    | nil =>
      rw [h] at ih
      simp only [List.length_nil] at ih
      simp [← ih]
    | cons b t =>
      rw [h] at ih
      simpa using ih

/-- The min-cascade yields a non-decreasing list: each element is the minimum
of its own raw value and everything after it. -/
theorem minCascade_sorted (l : List ℚ) : (minCascade l).Sorted (· ≤ ·) := by
  induction l with
  | nil => exact List.sorted_nil
  | cons a rest ih =>
    show (match minCascade rest with
      | [] => [a]
      | b :: t => min a b :: b :: t).Sorted (· ≤ ·)
    cases h : minCascade rest with
    | nil => simp
    | cons b t =>
      rw [h] at ih
      rw [List.sorted_cons]
      refine ⟨?_, ih⟩
      intro y hy
      rcases List.mem_cons.mp hy with rfl | hyt
      · exact min_le_right a y
      · exact (min_le_right a b).trans ((List.sorted_cons.mp ih).1 y hyt)

/-- Clipping to `[0, 1]` is monotone. -/
theorem clip01_mono {a b : ℚ} (h : a ≤ b) : clip01 a ≤ clip01 b :=
  max_le_max le_rfl (min_le_min le_rfl h)

/-- The q-values in sorted order form a non-decreasing list. -/
theorem sortedQs_sorted (ps : List ℚ) : (sortedQs ps).Sorted (· ≤ ·) :=
  (minCascade_sorted _).map clip01 (fun _ _ h => clip01_mono h)

/-- There are as many sorted-order q-values as input p-values. -/
theorem sortedQs_length (ps : List ℚ) : (sortedQs ps).length = ps.length := by
  simp [sortedQs, minCascade_length, bhRaw, bhSorted, List.length_insertionSort,
    List.enum_length]

/-- C2: the FDR Corrector returns a q-value list of the same length as its
input, scattered back to the original input order, with every q-value in
`[0, 1]`; and in the p-value-ascending sorted order the q-values are
non-decreasing: for positions `i < j` of the sorted order, the q-value at
sorted position `i` is at most the q-value at sorted position `j`. -/
theorem correct_bh_properties (ps : List ℚ) :
    (correct ps).length = ps.length ∧
    (∀ q ∈ correct ps, 0 ≤ q ∧ q ≤ 1) ∧
    (∀ i j : ℕ, i < j → j < (sortedQs ps).length →
      (sortedQs ps).getD i 0 ≤ (sortedQs ps).getD j 0) := by
  refine ⟨by simp [correct], ?_, ?_⟩
  · intro q hq
    unfold correct at hq
    simp only [List.mem_map, List.mem_range] at hq
    obtain ⟨k, _, hk⟩ := hq
    cases hfind : (((bhRaw ps).map Prod.fst).zip (sortedQs ps)).find? (fun e => e.1 == k) with
    | none =>
      rw [hfind] at hk
      simp only [Option.map_none', Option.getD_none] at hk
      subst hk
      norm_num
    | some e =>
      rw [hfind] at hk
      simp only [Option.map_some', Option.getD_some] at hk
      subst hk
      have he := List.mem_of_find?_eq_some hfind
      have hsnd : e.2 ∈ sortedQs ps := by
        obtain ⟨e1, e2⟩ := e
        exact (List.of_mem_zip he).2
      unfold sortedQs at hsnd
      simp only [List.mem_map] at hsnd
      obtain ⟨x, _, hx⟩ := hsnd
      rw [← hx]
      exact ⟨le_max_left 0 _, max_le (by norm_num) (min_le_left 1 x)⟩
  · intro i j hij hj
    have hi : i < (sortedQs ps).length := hij.trans hj
    rw [List.getD_eq_getElem _ 0 hi, List.getD_eq_getElem _ 0 hj]
    exact (sortedQs_sorted ps).rel_get_of_lt (show (⟨i, hi⟩ : Fin _) < ⟨j, hj⟩ from hij)

/-- Witness for C2 at the concrete p-value list `[1/2, 1/4]`: lengths agree,
the returned q-values lie in `[0, 1]`, and the sorted-order q-values are
non-decreasing between positions 0 and 1. -/
theorem correct_bh_properties_witness :
    (correct [1/2, 1/4]).length = 2 ∧
    (sortedQs [1/2, 1/4]).getD 0 0 ≤ (sortedQs [1/2, 1/4]).getD 1 0 := by
  refine ⟨?_, ?_⟩
  · exact (correct_bh_properties [1/2, 1/4]).1
  · exact (correct_bh_properties [1/2, 1/4]).2.2 0 1 (by norm_num)
      (by rw [sortedQs_length]; norm_num)

/-- Catch-all inversion for output records: every record of a run arises from
an index entry with at least one query hit that passed the Test Engine, and
its fields are those assembled by `mkRecord` (with the corrected FDR). -/
theorem mem_run_records {query : List String} {index : List TermEntry} {N : ℕ}
    {r : EnrichmentRecord} (hr : r ∈ (run query index N).1) :
    ∃ e ∈ index,
      (matchedGenes query.dedup e).length ≠ 0 ∧
      r.term = e.term ∧
      r.geneCount = (matchedGenes query.dedup e).length ∧
      r.bgCount = e.bg.length ∧
      r.fold = (((matchedGenes query.dedup e).length : ℚ) /
        (query.dedup.length : ℚ)) / ((e.bg.length : ℚ) / (N : ℚ)) := by
  unfold run at hr
  have hr2 : r ∈ assignFdr (rawRecords query index N) :=
    (List.perm_insertionSort recordRel _).mem_iff.mp hr
  unfold assignFdr at hr2
  simp only [List.mem_map] at hr2
  obtain ⟨rq, hrq, hr3⟩ := hr2
  have hfst : rq.1 ∈ rawRecords query index N := by
    obtain ⟨a, b⟩ := rq
    exact (List.of_mem_zip hrq).1
  unfold rawRecords at hfst
  simp only [List.mem_filterMap] at hfst
  obtain ⟨e, he, hfe⟩ := hfst
  by_cases hlen : (matchedGenes query.dedup e).length = 0
  · rw [if_pos hlen] at hfe
    exact absurd hfe (by simp)
  · rw [if_neg hlen] at hfe
    cases htest : test ((matchedGenes query.dedup e).length : ℤ)
        (query.dedup.length : ℤ) ((e.bg.length : ℤ)) (N : ℤ) with
    | error err =>
      rw [htest] at hfe
      exact absurd hfe (by simp [Except.toOption])
    | ok p =>
      rw [htest] at hfe
      simp only [Except.toOption, Option.map_some', Option.some.injEq] at hfe
      refine ⟨e, he, hlen, ?_, ?_, ?_, ?_⟩ <;>
        rw [← hr3, ← hfe] <;> rfl

/-- C3: every record emitted by the Orchestrator has query gene-count at
least 1 and background gene-count at least the query gene-count; and a term
whose background sets have zero overlap with the query set never appears in
the output record list. -/
theorem run_candidate_invariants (query : List String) (index : List TermEntry)
    (N : ℕ) :
    (∀ r ∈ (run query index N).1, 1 ≤ r.geneCount ∧ r.geneCount ≤ r.bgCount) ∧
    (∀ t : String,
      (∀ e ∈ index, e.term = t → (matchedGenes query.dedup e).length = 0) →
      t ∉ (run query index N).1.map (fun r => r.term)) := by
  constructor
  · intro r hr
    obtain ⟨e, he, hlen, hterm, hgc, hbg, hfold⟩ := mem_run_records hr
    rw [hgc, hbg]
    refine ⟨Nat.one_le_iff_ne_zero.mpr hlen, ?_⟩
    have hnodup : (matchedGenes query.dedup e).Nodup :=
      (List.nodup_dedup query).filter _
    have hsub : matchedGenes query.dedup e ⊆ e.bg := by
      intro g hg
      have := List.of_mem_filter hg
      simpa using this
    exact (hnodup.subperm hsub).length_le
  · intro t ht hmem
    simp only [List.mem_map] at hmem
    obtain ⟨r, hr, hterm⟩ := hmem
    obtain ⟨e, he, hlen, hterm2, _, _, _⟩ := mem_run_records hr
    exact hlen (ht e he (hterm2 ▸ hterm))

/-- Witness for C3 on spec section 8's scenario: term T2 has zero overlap
with the query `{G1, G2, G3}` and does not appear in the output. -/
theorem run_candidate_invariants_witness :
    "T2" ∉ (run ["G1", "G2", "G3"] exampleIndex 100).1.map (fun r => r.term) :=
  (run_candidate_invariants ["G1", "G2", "G3"] exampleIndex 100).2 "T2"
    (by decide)

/-- C4: the fold enrichment stored in every emitted record equals
`(queryHits / queryTotal) / (termBackground / populationTotal)`, and it
equals exactly `1` whenever the query's local proportion for the term equals
the population's global proportion. -/
theorem run_fold_formula (query : List String) (index : List TermEntry)
    (N : ℕ) :
    ∀ r ∈ (run query index N).1,
      r.fold = ((r.geneCount : ℚ) / (query.dedup.length : ℚ)) /
        ((r.bgCount : ℚ) / (N : ℚ)) ∧
      (((r.geneCount : ℚ) / (query.dedup.length : ℚ)) =
          ((r.bgCount : ℚ) / (N : ℚ)) → r.fold = 1) := by
  intro r hr
  obtain ⟨e, he, hlen, hterm, hgc, hbg, hfold⟩ := mem_run_records hr
  rw [hgc, hbg, hfold]
  refine ⟨rfl, ?_⟩
  intro heq
  have hq : query.dedup ≠ [] := by
    intro hnil
    apply hlen
    simp [matchedGenes, hnil]
  have hn : 0 < (query.dedup.length : ℚ) := by
    have := List.length_pos.mpr hq
    exact_mod_cast this
  have hhits : 0 < ((matchedGenes query.dedup e).length : ℚ) := by
    have := Nat.pos_of_ne_zero hlen
    exact_mod_cast this
  have hx : 0 < ((matchedGenes query.dedup e).length : ℚ) / (query.dedup.length : ℚ) :=
    div_pos hhits hn
  rw [← heq]
  exact div_self (ne_of_gt hx)

/-- The `exEntry` scenario evaluates to exactly one record. -/
theorem run_exEntry_eval : (run ["G1"] [exEntry] 1).1 = [exRecord] := by
  have htest : test 1 1 1 1 = .ok 1 := by
    unfold test
    norm_num
    unfold hypergeomPMF
    norm_num [Nat.choose]
  have hraw : rawRecords ["G1"] [exEntry] 1 = [mkRecord 1 1 exEntry ["G1"] 1] := by
    simp [rawRecords, matchedGenes, exEntry, htest, Except.toOption]
  have hcor : correct [1] = [1] := by
    simp [correct, sortedQs, bhRaw, bhSorted, bhRel, minCascade, clip01,
      List.insertionSort, List.orderedInsert, List.find?]
    rw [show (List.range 1) = [0] from rfl]
    simp
  unfold run
  rw [hraw]
  unfold assignFdr
  have hpv : [mkRecord 1 1 exEntry ["G1"] 1].map (fun r => r.pValue) = [1] := by
    simp [mkRecord]
  rw [hpv, hcor]
  simp [List.insertionSort, List.orderedInsert, mkRecord, exEntry, exRecord]

/-- Witness for C4: in the `exEntry` scenario, the record's local proportion
equals the global proportion and its stored fold is exactly 1. -/
theorem run_fold_formula_witness :
    exRecord ∈ (run ["G1"] [exEntry] 1).1 ∧ exRecord.fold = 1 := by
  have hr : exRecord ∈ (run ["G1"] [exEntry] 1).1 := by
    rw [run_exEntry_eval]
    exact List.mem_singleton_self _
  refine ⟨hr, ?_⟩
  refine (run_fold_formula ["G1"] [exEntry] 1 exRecord hr).2 ?_
  have hd : (["G1"] : List String).dedup = ["G1"] := by
    rw [List.dedup_cons_of_not_mem (by simp), List.dedup_nil]
  norm_num [exRecord, hd]

/-- C5: the full enrichment pipeline is a pure function of the query set, the
annotation index and the population total: its result does not depend on the
wall clock, an RNG seed or a run counter, so two runs on identical inputs
produce identical record lists, equal in order and in every field. -/
theorem run_env_independent (c1 r1 n1 c2 r2 n2 : ℕ) (query : List String)
    (index : List TermEntry) (N : ℕ) :
    runWithEnv c1 r1 n1 query index N = runWithEnv c2 r2 n2 query index N := rfl

/-- C8: the Orchestrator deduplicates the query before counting, so a query
with duplicate identifiers produces exactly the records and summary of the
duplicate-free query. -/
theorem run_dedup_defensive (query : List String) (index : List TermEntry)
    (N : ℕ) :
    run query index N = run query.dedup index N := by
  unfold run rawRecords summaryOf
  rw [List.dedup_idem]

/-- Removing a valid index splits a mapped sum into the removed element's
contribution plus the rest. -/
theorem sum_getD_eraseIdx {α : Type} (f : α → ℕ) (d : α) :
    ∀ (l : List α) (i : ℕ), i < l.length →
      f (l.getD i d) + ((l.eraseIdx i).map f).sum = (l.map f).sum := by
  intro l
  induction l with
  | nil => intro i hi; simp at hi
  | cons a t ih =>
    intro i hi
    cases i with
    | zero => simp
    | succ i =>
      simp only [List.length_cons, Nat.succ_lt_succ_iff] at hi
      have := ih i hi
      simp only [List.getD_cons_succ, List.eraseIdx_cons_succ, List.map_cons,
        List.sum_cons]
      omega

/-- Lookups below the removed index are unchanged. -/
theorem getD_eraseIdx_lt {α : Type} (d : α) :
    ∀ (l : List α) (i j : ℕ), i < j → (l.eraseIdx j).getD i d = l.getD i d := by
  intro l
  induction l with
  | nil => intro i j _; rfl
  | cons a t ih =>
    intro i j hij
    cases j with
    | zero => omega
    | succ j =>
      cases i with
      | zero => simp
      | succ i =>
        simp only [List.eraseIdx_cons_succ, List.getD_cons_succ]
        exact ih i j (by omega)

/-- One merge preserves the total leaf count. -/
theorem mergeStep_sumLeaves (l : List Cluster) (hl : 2 ≤ l.length) :
    sumLeaves (mergeStep l) = sumLeaves l := by
  obtain ⟨hij, hjl⟩ := bestPair_valid l hl
  have hj1 : (l.eraseIdx (bestPair l).2).length = l.length - 1 := by
    rw [List.length_eraseIdx, if_pos hjl]
  have hi : (bestPair l).1 < (l.eraseIdx (bestPair l).2).length := by omega
  have hA := sum_getD_eraseIdx (fun c => leafCount c.tree) emptyCluster l
    (bestPair l).2 hjl
  have hB := sum_getD_eraseIdx (fun c => leafCount c.tree) emptyCluster
    (l.eraseIdx (bestPair l).2) (bestPair l).1 hi
  rw [getD_eraseIdx_lt emptyCluster l (bestPair l).1 (bestPair l).2 hij] at hB
  unfold mergeStep
  simp only [sumLeaves, List.map_cons, List.sum_cons, leafCount]
  simp only [] at hA hB
  omega

/-- One merge adds exactly one internal node overall. -/
theorem mergeStep_sumInternal (l : List Cluster) (hl : 2 ≤ l.length) :
    sumInternal (mergeStep l) = sumInternal l + 1 := by
  obtain ⟨hij, hjl⟩ := bestPair_valid l hl
  have hj1 : (l.eraseIdx (bestPair l).2).length = l.length - 1 := by
    rw [List.length_eraseIdx, if_pos hjl]
  have hi : (bestPair l).1 < (l.eraseIdx (bestPair l).2).length := by omega
  have hA := sum_getD_eraseIdx (fun c => internalCount c.tree) emptyCluster l
    (bestPair l).2 hjl
  have hB := sum_getD_eraseIdx (fun c => internalCount c.tree) emptyCluster
    (l.eraseIdx (bestPair l).2) (bestPair l).1 hi
  rw [getD_eraseIdx_lt emptyCluster l (bestPair l).1 (bestPair l).2 hij] at hB
  unfold mergeStep
  simp only [sumInternal, List.map_cons, List.sum_cons, internalCount]
  simp only [] at hA hB
  omega

/-- Invariant of the merge loop: starting from at least one live cluster,
agglomeration returns a tree carrying all leaves and one internal node per
merge performed. -/
theorem agglomerate_spec :
    ∀ (n : ℕ) (l : List Cluster), l.length = n → 1 ≤ n →
      ∃ t, agglomerate l = some t ∧ leafCount t = sumLeaves l ∧
        internalCount t = sumInternal l + (l.length - 1) := by
  intro n
  induction n using Nat.strong_induction_on with
  | _ n ih =>
    intro l hlen hn
    match l with
    | [] => simp at hlen; omega
    | [c] =>
      refine ⟨c.tree, ?_, ?_, ?_⟩
      · rw [agglomerate]
      · simp [sumLeaves]
      · simp [sumInternal]
    | a :: b :: rest =>
      have hl2 : 2 ≤ (a :: b :: rest).length := by simp
      have hms_len : (mergeStep (a :: b :: rest)).length =
          (a :: b :: rest).length - 1 := mergeStep_length _ hl2
      have hrec : agglomerate (a :: b :: rest) =
          agglomerate (mergeStep (a :: b :: rest)) := by
        rw [agglomerate]
      have hlt : (a :: b :: rest).length - 1 < n := by
        subst hlen
        simp only [List.length_cons]
        omega
      have h1 : 1 ≤ (a :: b :: rest).length - 1 := by
        simp only [List.length_cons]
        omega
      obtain ⟨t, ht, hleaf, hint⟩ := ih ((a :: b :: rest).length - 1) hlt
        (mergeStep (a :: b :: rest)) hms_len h1
      refine ⟨t, hrec.trans ht, ?_, ?_⟩
      · rw [hleaf, mergeStep_sumLeaves _ hl2]
      · rw [hint, mergeStep_sumInternal _ hl2, hms_len]
        simp only [List.length_cons]
        omega

/-- A tree's size is its leaves plus its internal nodes. -/
theorem totalCount_eq (t : ClusterTree) :
    totalCount t = leafCount t + internalCount t := by
  induction t with
  | leaf r => rfl
  | node l r h ihl ihr =>
    simp only [totalCount, leafCount, internalCount, ihl, ihr]
    omega

/-- Initial leaves carry one leaf each. -/
theorem sumLeaves_toCluster (rs : List EnrichmentRecord) :
    sumLeaves (rs.map toCluster) = rs.length := by
  induction rs with
  | nil => rfl
  | cons r t ih =>
    simp only [List.map_cons, sumLeaves, List.sum_cons, toCluster, leafCount,
      List.length_cons]
    simp only [sumLeaves] at ih
    omega

/-- Initial leaves carry no internal nodes. -/
theorem sumInternal_toCluster (rs : List EnrichmentRecord) :
    sumInternal (rs.map toCluster) = 0 := by
  induction rs with
  | nil => rfl
  | cons r t ih =>
    simp only [List.map_cons, sumInternal, List.sum_cons, toCluster,
      internalCount]
    simp only [sumInternal] at ih
    omega

/-- C6 (amended): `cluster(records, topN)` returns `null` whenever
`topN < 2`; and whenever at least two records are available among the first
`topN` (with `k` the number of taken records, `k ≥ 2`), it returns a binary
tree over exactly those `k` leaves, built by `k-1` merges: `k-1` internal
merge nodes and `2k-1` total nodes.  The original claim asserts a tree for
every `topN ≥ 2`, but with fewer than two records the Clusterer returns
`null` as well (see the counterexample). -/
theorem cluster_tree_shape (records : List EnrichmentRecord) (topN : ℕ) :
    (topN < 2 → cluster records topN = none) ∧
    (2 ≤ (records.take topN).length →
      ∃ t, cluster records topN = some t ∧
        leafCount t = (records.take topN).length ∧
        internalCount t = (records.take topN).length - 1 ∧
        totalCount t = 2 * (records.take topN).length - 1) := by
  constructor
  · intro htop
    unfold cluster
    have : (records.take topN).length < 2 := by
      have := List.length_take_le topN records
      omega
    rw [if_pos this]
  · intro hk
    unfold cluster
    rw [if_neg (by omega)]
    have hlen : ((records.take topN).map toCluster).length =
        (records.take topN).length := List.length_map _ _
    obtain ⟨t, ht, hleaf, hint⟩ := agglomerate_spec
      ((records.take topN).map toCluster).length
      ((records.take topN).map toCluster) rfl (by omega)
    refine ⟨t, ht, ?_, ?_, ?_⟩
    · rw [hleaf, sumLeaves_toCluster]
    · rw [hint, sumInternal_toCluster, hlen]
      omega
    · rw [totalCount_eq, hleaf, hint, sumLeaves_toCluster,
        sumInternal_toCluster, hlen]
      omega

/-- C6 counterexample: with a single available record and `topN = 5 ≥ 2` the
Clusterer returns `null`, not a tree, refuting the claim that every
`topN ≥ 2` yields a binary tree. -/
theorem cluster_single_record_counterexample :
    cluster [exRecord] 5 = none := by
  unfold cluster
  rw [if_pos]
  simp

/-- Witness for C6: `topN = 1` yields `null`, and two records with
`topN = 2` yield a tree with 2 leaves, 1 internal merge node and 3 nodes in
total. -/
theorem cluster_tree_shape_witness :
    cluster [exRecord] 1 = none ∧
    ∃ t, cluster [exRecord, exRecord] 2 = some t ∧ leafCount t = 2 ∧
      internalCount t = 1 ∧ totalCount t = 3 := by
  constructor
  · exact (cluster_tree_shape [exRecord] 1).1 (by norm_num)
  · have h := (cluster_tree_shape [exRecord, exRecord] 2).2 (by simp)
    simpa using h

/-- C7: the CSV serialization emits, for every record of the result list,
exactly nine fields in the order term, description, category, pValue, fdr,
fold, geneCount, bgCount, genes, one line per record after the header. -/
theorem csv_field_order (pExp numStr : ℚ → String) (natStr : ℕ → String)
    (getName : String → String) (results : List CSVRecord) (r : CSVRecord) :
    downloadCSVText pExp numStr natStr getName results =
      String.intercalate "\n" (csvLine csvHeaders ::
        results.map (fun s => csvLine (csvRow pExp numStr natStr getName s))) ∧
    (csvRow pExp numStr natStr getName r).length = 9 ∧
    (csvRow pExp numStr natStr getName r).getD 0 "" = r.term ∧
    (csvRow pExp numStr natStr getName r).getD 1 "" =
      quoted (escDouble (r.description.getD "")) ∧
    (csvRow pExp numStr natStr getName r).getD 2 "" =
      quoted (escDouble (r.category.getD "")) ∧
    (csvRow pExp numStr natStr getName r).getD 3 "" = pExp r.pValue ∧
    (csvRow pExp numStr natStr getName r).getD 4 "" = pExp r.fdr ∧
    (csvRow pExp numStr natStr getName r).getD 5 "" = numStr r.fold ∧
    (csvRow pExp numStr natStr getName r).getD 6 "" = natStr r.geneCount ∧
    (csvRow pExp numStr natStr getName r).getD 7 "" = natStr r.bgCount ∧
    (csvRow pExp numStr natStr getName r).getD 8 "" =
      quoted (String.intercalate ", " (r.genes.map getName)) :=
  ⟨rfl, rfl, rfl, rfl, rfl, rfl, rfl, rfl, rfl, rfl, rfl⟩

/-- C10: only description, category and genes are wrapped in double quotes
(with embedded quotes doubled in description and category but not in genes),
while the term field is written verbatim with no quoting or escaping; hence
the row of a term identifier containing a comma carries nine commas instead
of the eight separating nine columns, shifting that row's columns. -/
theorem csv_quoting (pExp numStr : ℚ → String) (natStr : ℕ → String)
    (getName : String → String) (r : CSVRecord) :
    (csvRow pExp numStr natStr getName r).getD 0 "" = r.term ∧
    (csvRow pExp numStr natStr getName r).getD 1 "" =
      "\"" ++ escDouble (r.description.getD "") ++ "\"" ∧
    (csvRow pExp numStr natStr getName r).getD 2 "" =
      "\"" ++ escDouble (r.category.getD "") ++ "\"" ∧
    (csvRow pExp numStr natStr getName r).getD 8 "" =
      "\"" ++ String.intercalate ", " (r.genes.map getName) ++ "\"" ∧
    (csvLine (csvRow (fun _ => "0") (fun _ => "0") (fun _ => "0")
      (fun g => g) commaRecord)).toList.count ',' = 9 ∧
    (csvLine (csvRow (fun _ => "0") (fun _ => "0") (fun _ => "0")
      (fun g => g) { commaRecord with term := "T1" })).toList.count ',' = 8 := by
  refine ⟨rfl, rfl, rfl, rfl, ?_, ?_⟩ <;> decide

end GeneRelate
